import Mathlib

/-!
Shallow embedding of `ReusableVec<T>` from `src/lib.rs` of the
`reusable-vec` crate, together with theorems checking the natural-language
specification against it.

Modelling choices:
* The backing `Vec<T>` is modelled as a `List α` holding exactly the
  physically present elements; the reserved-but-unpopulated capacity of a
  Rust `Vec` holds no elements and is not observable through any public
  operation, so it does not appear in the model.
* `len : usize` is modelled as `Nat`.  The `checked_add(1).unwrap()` in
  `push` is modelled separately (`push_checked`) with an explicit machine
  width `w`, where `usize::MAX = 2 ^ w - 1` and `unwrap` on `None` is a
  fatal panic, represented by the `none` result.
* A method taking `&mut self` becomes a function returning the new state
  (paired with the method's return value where there is one).  The
  `&mut T` returned by `push_reuse` is modelled by the index of the slot
  it points to.
-/

structure ReusableVec (α : Type) where
  vec : List α
  len : Nat
  deriving Repr, DecidableEq

namespace ReusableVec

variable {α : Type}

/-- `ReusableVec::new`: `Self { vec: Vec::new(), len: 0 }`. -/
def new : ReusableVec α := ⟨[], 0⟩

/-- `ReusableVec::with_capacity`: `Self { vec: Vec::with_capacity(capacity), len: 0 }`.
`Vec::with_capacity` reserves capacity but contains no elements, so the
backing list is empty. -/
def with_capacity (_capacity : Nat) : ReusableVec α := ⟨[], 0⟩

/-- `ReusableVec::push_reuse`:
`(self.len < self.vec.len()).then(move || { self.len += 1; &mut self.vec[self.len - 1] })`.
Returns the index the returned `&mut T` points to (if any), paired with the
new state. -/
def push_reuse (r : ReusableVec α) : Option Nat × ReusableVec α :=
  if r.len < r.vec.length then
    (some r.len, ⟨r.vec, r.len + 1⟩)
  else
    (none, r)

/-- `ReusableVec::push` with the length counter idealised as an unbounded
natural number (so `checked_add(1)` always succeeds):
`self.len += 1; if self.len <= self.vec.len() { self.vec[self.len - 1] = value } else { self.vec.push(value) }`. -/
def push (r : ReusableVec α) (value : α) : ReusableVec α :=
  if r.len + 1 ≤ r.vec.length then
    ⟨r.vec.set r.len value, r.len + 1⟩
  else
    ⟨r.vec ++ [value], r.len + 1⟩

/-- Rust's `usize::checked_add` at machine width `w`: `some (a + b)` when the
sum fits in `w` bits, `none` on overflow. -/
def checked_add (w a b : Nat) : Option Nat :=
  if a + b < 2 ^ w then some (a + b) else none

/-- `ReusableVec::push` with the `usize` length counter modelled at machine
width `w`: `self.len = self.len.checked_add(1).unwrap(); ...`.  A `none`
result is the fatal panic of `unwrap` on overflow. -/
def push_checked (w : Nat) (r : ReusableVec α) (value : α) : Option (ReusableVec α) :=
  match checked_add w r.len 1 with
  | none => none
  | some newLen =>
    some (if newLen ≤ r.vec.length then
      ⟨r.vec.set (newLen - 1) value, newLen⟩
    else
      ⟨r.vec ++ [value], newLen⟩)

/-- `ReusableVec::as_slice`: `&self.vec[..self.len]`.  The range indexing
panics when `self.len > self.vec.len()`, modelled by `none`. -/
def as_slice (r : ReusableVec α) : Option (List α) :=
  if r.len ≤ r.vec.length then some (r.vec.take r.len) else none

/-- `ReusableVec::as_mut_slice`: `&mut self.vec[..self.len]`.  Same contents
as `as_slice`; mutability is irrelevant to the returned view itself. -/
def as_mut_slice (r : ReusableVec α) : Option (List α) :=
  if r.len ≤ r.vec.length then some (r.vec.take r.len) else none

/-- `ReusableVec::into_vec`: `self.vec.truncate(self.len); self.vec`.
`Vec::truncate` keeps the first `self.len` elements and is a no-op when
`self.len` exceeds the element count, exactly `List.take`. -/
def into_vec (r : ReusableVec α) : List α :=
  r.vec.take r.len

/-- `ReusableVec::clear_reuse`: `self.len = 0;` — backing storage untouched. -/
def clear_reuse (r : ReusableVec α) : ReusableVec α :=
  ⟨r.vec, 0⟩

/-- `ReusableVec::clear_drop`: `self.vec.clear(); self.len = 0;`. -/
def clear_drop (_r : ReusableVec α) : ReusableVec α :=
  ⟨[], 0⟩

/-- `impl From<Vec<T>> for ReusableVec<T>`: `Self { len: vec.len(), vec }`. -/
def from_vec (v : List α) : ReusableVec α :=
  ⟨v, v.length⟩

/-- Writing `v` into index `i` of the view returned by `as_mut_slice`
(`self.as_mut_slice()[i] = v`): a write through the mutable view mutates the
backing buffer in place.  Out-of-range writes into the slice would panic in
Rust; within the model the state is returned unchanged in that case, and the
theorems using this only touch in-range indices. -/
def set_live (r : ReusableVec α) (i : Nat) (v : α) : ReusableVec α :=
  if i < r.len then ⟨r.vec.set i v, r.len⟩ else r

/-- The representation invariant I1: the logical length never exceeds the
number of physically present elements. -/
def Inv (r : ReusableVec α) : Prop := r.len ≤ r.vec.length

instance (r : ReusableVec α) : Decidable (Inv r) := by
  unfold Inv; infer_instance

/-- The state-mutating public operations, for reachability statements. -/
inductive Op (α : Type) where
  | push_reuse
  | push (v : α)
  | clear_reuse
  | clear_drop
  deriving Repr, DecidableEq

/-- Whether an `Op` is a `push`. -/
def Op.isPush : Op α → Bool
  | .push _ => true
  | _ => false

/-- Apply one mutating operation to a state.  The read-only operations
(`as_slice`, `as_mut_slice`, `len`) do not change the state; `into_vec`
consumes the container, so no state follows it. -/
def applyOp (r : ReusableVec α) : Op α → ReusableVec α
  | .push_reuse => (r.push_reuse).2
  | .push v => r.push v
  | .clear_reuse => r.clear_reuse
  | .clear_drop => r.clear_drop

/-- Run a sequence of mutating operations from an initial state. -/
def run (init : ReusableVec α) (ops : List (Op α)) : ReusableVec α :=
  ops.foldl applyOp init

/-- The initial states producible by the public constructors. -/
def Initial (r : ReusableVec α) : Prop :=
  r = new ∨ (∃ n, r = with_capacity n) ∨ (∃ v, r = from_vec v)

lemma inv_new : Inv (new : ReusableVec α) := Nat.zero_le _

lemma inv_with_capacity (n : Nat) : Inv (with_capacity n : ReusableVec α) :=
  Nat.zero_le _

lemma inv_from_vec (v : List α) : Inv (from_vec v) := le_refl _

lemma inv_initial {r : ReusableVec α} (h : Initial r) : Inv r := by
  rcases h with h | ⟨n, h⟩ | ⟨v, h⟩ <;> subst h
  · exact inv_new
  · exact inv_with_capacity n
  · exact inv_from_vec v

lemma inv_applyOp {r : ReusableVec α} (h : Inv r) (op : Op α) :
    Inv (applyOp r op) := by
  cases op with
  | push_reuse =>
    unfold applyOp push_reuse
    by_cases hlt : r.len < r.vec.length
    · simp only [hlt, if_pos]
      exact hlt
    · simp only [hlt, if_neg, not_false_iff]
      exact h
  | push v =>
    unfold applyOp push
    by_cases hle : r.len + 1 ≤ r.vec.length
    · simp [hle, Inv]
    · have h' : r.len ≤ r.vec.length := h
      simp only [hle, if_neg, not_false_iff]
      unfold Inv
      simp only [List.length_append, List.length_cons, List.length_nil]
      omega
  | clear_reuse => exact Nat.zero_le _
  | clear_drop => exact Nat.zero_le _

lemma inv_run {r : ReusableVec α} (h : Inv r) (ops : List (Op α)) :
    Inv (run r ops) := by
  induction ops generalizing r with
  | nil => exact h
  | cons op rest ih => exact ih (inv_applyOp h op)

/-- Setting index `n` and then taking the first `n + 1` elements ends with
the value just written. -/
lemma getLast?_take_set (l : List α) (n : Nat) (v : α) (h : n < l.length) :
    ((l.set n v).take (n + 1)).getLast? = some v := by
  rw [List.getLast?_eq_getElem?]
  have hlen : ((l.set n v).take (n + 1)).length = n + 1 := by
    simp [List.length_take]
    omega
  rw [hlen]
  simp only [Nat.add_sub_cancel]
  rw [List.getElem?_take_of_lt (by omega)]
  exact List.getElem?_set_self h

/-- `push_checked` refines `push`: when the incremented length fits in the
machine width, the checked implementation succeeds and agrees with the
idealised `push`. -/
lemma push_checked_eq_push (w : Nat) (r : ReusableVec α) (v : α)
    (h : r.len + 1 < 2 ^ w) :
    push_checked w r v = some (r.push v) := by
  unfold push_checked checked_add push
  simp [h, Nat.add_sub_cancel]

/-- From the empty physical state, no sequence of operations that contains
no `push` can change the state. -/
lemma run_empty_of_noPush (ops : List (Op α))
    (h : ∀ op ∈ ops, op.isPush = false) :
    run (⟨[], 0⟩ : ReusableVec α) ops = ⟨[], 0⟩ := by
  induction ops with
  | nil => rfl
  | cons op rest ih =>
    have hop : op.isPush = false := h op (List.mem_cons_self op rest)
    have hrest : ∀ o ∈ rest, o.isPush = false :=
      fun o ho => h o (List.mem_cons_of_mem op ho)
    have hstep : applyOp (⟨[], 0⟩ : ReusableVec α) op = ⟨[], 0⟩ := by
      cases op with
      | push_reuse => simp [applyOp, push_reuse]
      | push v => simp [Op.isPush] at hop
      | clear_reuse => rfl
      | clear_drop => rfl
    show run (applyOp (⟨[], 0⟩ : ReusableVec α) op) rest = ⟨[], 0⟩
    rw [hstep]
    exact ih hrest

/-- C1: for every state reachable from a public constructor (`new`,
`with_capacity`, `From<Vec>`) by any sequence of the mutating public
operations, the logical length `len` is at most the physical element count
`vec.len()` after every call. -/
theorem C1_invariant_reachable (init : ReusableVec α) (ops : List (Op α))
    (h : Initial init) :
    (run init ops).len ≤ (run init ops).vec.length :=
  inv_run (inv_initial h) ops

theorem C1_invariant_reachable_witness :
    (run (new : ReusableVec Nat)
        [Op.push 1, Op.push 2, Op.clear_reuse, Op.push_reuse]).len ≤
      (run (new : ReusableVec Nat)
        [Op.push 1, Op.push 2, Op.clear_reuse, Op.push_reuse]).vec.length :=
  C1_invariant_reachable new [Op.push 1, Op.push 2, Op.clear_reuse, Op.push_reuse]
    (Or.inl rfl)

/-- C2: when `len < vec.len()`, `push_reuse` increments `len` and returns
the slot at index `new len - 1`, leaving the backing storage (hence the
slot's prior value and the physical element count) completely unchanged;
when `len = vec.len()`, it returns `None` and the whole state is
unchanged. -/
theorem C2_push_reuse (r : ReusableVec α) :
    (r.len < r.vec.length →
      ∃ s, push_reuse r = (some r.len, s) ∧ s.len = r.len + 1 ∧
        r.len = s.len - 1 ∧ s.vec = r.vec ∧ s.vec.length = r.vec.length) ∧
    (r.len = r.vec.length → push_reuse r = (none, r)) := by
  constructor
  · intro hlt
    refine ⟨⟨r.vec, r.len + 1⟩, ?_, rfl, rfl, rfl, rfl⟩
    simp [push_reuse, hlt]
  · intro heq
    simp [push_reuse, heq]

theorem C2_push_reuse_witness :
    (∃ s, push_reuse (⟨[5], 0⟩ : ReusableVec Nat) = (some 0, s) ∧
      s.len = 1 ∧ (0 : Nat) = s.len - 1 ∧ s.vec = [5] ∧ s.vec.length = 1) ∧
    push_reuse (⟨[5], 1⟩ : ReusableVec Nat) = (none, ⟨[5], 1⟩) :=
  ⟨(C2_push_reuse ⟨[5], 0⟩).1 (by decide),
   (C2_push_reuse ⟨[5], 1⟩).2 rfl⟩

/-- C3: `push v` increments the logical length by one, and afterwards
`as_slice` ends with `v`; when the new length fits in the existing physical
storage the slot is overwritten in place (physical count unchanged),
otherwise `v` is physically appended. -/
theorem C3_push (r : ReusableVec α) (v : α) (hinv : r.len ≤ r.vec.length) :
    (r.push v).len = r.len + 1 ∧
    (∃ l, as_slice (r.push v) = some l ∧ l.getLast? = some v) ∧
    (r.len + 1 ≤ r.vec.length →
      (r.push v).vec = r.vec.set r.len v ∧
      (r.push v).vec.length = r.vec.length) ∧
    (r.vec.length < r.len + 1 → (r.push v).vec = r.vec ++ [v]) := by
  by_cases hle : r.len + 1 ≤ r.vec.length
  · refine ⟨by simp [push, hle], ?_, fun _ => ⟨by simp [push, hle], by simp [push, hle]⟩,
      fun hgt => absurd hle (by omega)⟩
    refine ⟨(r.vec.set r.len v).take (r.len + 1), ?_, ?_⟩
    · simp [push, as_slice, hle]
    · exact getLast?_take_set r.vec r.len v (by omega)
  · have heq : r.len = r.vec.length := by omega
    refine ⟨by simp [push, hle], ?_, fun hc => absurd hc hle, fun _ => by simp [push, hle]⟩
    refine ⟨r.vec ++ [v], ?_, ?_⟩
    · simp [push, as_slice, hle]
      omega
    · exact List.getLast?_concat r.vec

theorem C3_push_witness :
    ((⟨[1, 2], 1⟩ : ReusableVec Nat).push 9).len = 1 + 1 ∧
    (∃ l, as_slice ((⟨[1, 2], 1⟩ : ReusableVec Nat).push 9) = some l ∧
      l.getLast? = some 9) ∧
    (1 + 1 ≤ ([1, 2] : List Nat).length →
      ((⟨[1, 2], 1⟩ : ReusableVec Nat).push 9).vec = ([1, 2] : List Nat).set 1 9 ∧
      ((⟨[1, 2], 1⟩ : ReusableVec Nat).push 9).vec.length = ([1, 2] : List Nat).length) ∧
    (([1, 2] : List Nat).length < 1 + 1 →
      ((⟨[1, 2], 1⟩ : ReusableVec Nat).push 9).vec = [1, 2] ++ [9]) :=
  C3_push ⟨[1, 2], 1⟩ 9 (by decide)

/-- C4: `clear_reuse` zeroes the logical length while leaving the backing
storage unchanged; writing `v` into live slot 0 through the mutable view,
then `clear_reuse`, then `push_reuse` yields slot 0 still holding `v`,
with the backing storage untouched by the clear and the reuse. -/
theorem C4_clear_reuse (r : ReusableVec α) (v : α) (h0 : 0 < r.len)
    (hinv : r.len ≤ r.vec.length) :
    (clear_reuse r).len = 0 ∧ (clear_reuse r).vec = r.vec ∧
    (∃ s, push_reuse (clear_reuse (set_live r 0 v)) = (some 0, s) ∧
      s.vec[0]? = some v ∧ s.vec = (set_live r 0 v).vec) := by
  have hlen : 0 < (r.vec.set 0 v).length := by
    simp only [List.length_set]
    omega
  refine ⟨rfl, rfl, ⟨r.vec.set 0 v, 0 + 1⟩, ?_, ?_, ?_⟩
  · have hset : set_live r 0 v = ⟨r.vec.set 0 v, r.len⟩ := by
      simp [set_live, h0]
    rw [hset]
    simp [clear_reuse, push_reuse, hlen]
    exact List.ne_nil_of_length_pos (by omega)
  · exact List.getElem?_set_self (by omega)
  · simp [set_live, h0]

theorem C4_clear_reuse_witness :
    (clear_reuse (⟨[7, 8], 2⟩ : ReusableVec Nat)).len = 0 ∧
    (clear_reuse (⟨[7, 8], 2⟩ : ReusableVec Nat)).vec = [7, 8] ∧
    (∃ s, push_reuse (clear_reuse (set_live (⟨[7, 8], 2⟩ : ReusableVec Nat) 0 9)) =
        (some 0, s) ∧
      s.vec[0]? = some 9 ∧ s.vec = (set_live (⟨[7, 8], 2⟩ : ReusableVec Nat) 0 9).vec) :=
  C4_clear_reuse ⟨[7, 8], 2⟩ 9 (by decide) (by decide)

/-- C5: `into_vec` returns exactly the live prefix: its element count equals
the logical length, it agrees with `as_slice` elementwise, and
`push x` then `clear_reuse` then `into_vec` yields the empty vector. -/
theorem C5_into_vec (r : ReusableVec α) (x : α) (hinv : r.len ≤ r.vec.length) :
    (into_vec r).length = r.len ∧
    as_slice r = some (into_vec r) ∧
    (∀ i, i < r.len → (into_vec r)[i]? = r.vec[i]?) ∧
    into_vec (clear_reuse (r.push x)) = [] := by
  refine ⟨?_, ?_, ?_, ?_⟩
  · simp [into_vec, List.length_take]
    omega
  · simp [as_slice, into_vec, hinv]
  · intro i hi
    exact List.getElem?_take_of_lt hi
  · rfl

theorem C5_into_vec_witness :
    (into_vec (⟨[4, 5, 6], 2⟩ : ReusableVec Nat)).length = 2 ∧
    as_slice (⟨[4, 5, 6], 2⟩ : ReusableVec Nat) =
      some (into_vec (⟨[4, 5, 6], 2⟩ : ReusableVec Nat)) ∧
    (∀ i, i < 2 →
      (into_vec (⟨[4, 5, 6], 2⟩ : ReusableVec Nat))[i]? = ([4, 5, 6] : List Nat)[i]?) ∧
    into_vec (clear_reuse ((⟨[4, 5, 6], 2⟩ : ReusableVec Nat).push 7)) = [] :=
  C5_into_vec ⟨[4, 5, 6], 2⟩ 7 (by decide)

/-- C6: converting a plain vector to a `ReusableVec` sets the logical length
to the vector's element count, and converting back through `into_vec`
returns the original vector with its element count preserved exactly. -/
theorem C6_roundtrip (v : List α) :
    (from_vec v).len = v.length ∧ (from_vec v).vec.length = v.length ∧
    into_vec (from_vec v) = v ∧ (into_vec (from_vec v)).length = v.length := by
  refine ⟨rfl, rfl, ?_, ?_⟩
  · simp [into_vec, from_vec]
  · simp [into_vec, from_vec]

/-- C7: after `clear_drop` the physical storage is empty and the logical
length is 0, and `push_reuse` returns `None` in every state reached from
there by any sequence of operations containing no `push`. -/
theorem C7_clear_drop (r : ReusableVec α) (ops : List (Op α))
    (h : ∀ op ∈ ops, op.isPush = false) :
    (clear_drop r).vec = [] ∧ (clear_drop r).len = 0 ∧
    run (clear_drop r) ops = ⟨[], 0⟩ ∧
    (push_reuse (run (clear_drop r) ops)).1 = none := by
  have hrun : run (clear_drop r) ops = ⟨[], 0⟩ := run_empty_of_noPush ops h
  refine ⟨rfl, rfl, hrun, ?_⟩
  rw [hrun]
  simp [push_reuse]

theorem C7_clear_drop_witness :
    (clear_drop (⟨[3], 1⟩ : ReusableVec Nat)).vec = [] ∧
    (clear_drop (⟨[3], 1⟩ : ReusableVec Nat)).len = 0 ∧
    run (clear_drop (⟨[3], 1⟩ : ReusableVec Nat))
      [Op.push_reuse, Op.clear_reuse, Op.push_reuse] = ⟨[], 0⟩ ∧
    (push_reuse (run (clear_drop (⟨[3], 1⟩ : ReusableVec Nat))
      [Op.push_reuse, Op.clear_reuse, Op.push_reuse])).1 = none :=
  C7_clear_drop ⟨[3], 1⟩ [Op.push_reuse, Op.clear_reuse, Op.push_reuse]
    (by decide)

/-- C8: with the `usize` length counter modelled at machine width `w`, a
`push` on a state whose logical length is `usize::MAX = 2 ^ w - 1` hits the
`checked_add` overflow and the `unwrap` panic (a fatal, non-recoverable
failure), rather than wrapping the length. -/
theorem C8_push_overflow (w : Nat) (r : ReusableVec α) (v : α)
    (h : r.len = 2 ^ w - 1) :
    push_checked w r v = none := by
  have hpos : 0 < 2 ^ w := Nat.pos_pow_of_pos w (by omega)
  unfold push_checked checked_add
  have : ¬ (r.len + 1 < 2 ^ w) := by omega
  simp [this]

theorem C8_push_overflow_witness :
    push_checked 3 (⟨[], 7⟩ : ReusableVec Nat) 0 = none :=
  C8_push_overflow 3 ⟨[], 7⟩ 0 (by decide)

/-- C9: `as_slice` and `as_mut_slice` both yield the same view of exactly
the first `len` elements of the backing storage: its length is `len` and it
agrees with the backing storage at every index below `len`. -/
theorem C9_views (r : ReusableVec α) (hinv : r.len ≤ r.vec.length) :
    ∃ l, as_slice r = some l ∧ as_mut_slice r = some l ∧
      l.length = r.len ∧ ∀ i, i < r.len → l[i]? = r.vec[i]? := by
  refine ⟨r.vec.take r.len, ?_, ?_, ?_, ?_⟩
  · simp [as_slice, hinv]
  · simp [as_mut_slice, hinv]
  · simp [List.length_take]
    omega
  · intro i hi
    exact List.getElem?_take_of_lt hi

theorem C9_views_witness :
    ∃ l, as_slice (⟨[1, 2, 3], 2⟩ : ReusableVec Nat) = some l ∧
      as_mut_slice (⟨[1, 2, 3], 2⟩ : ReusableVec Nat) = some l ∧
      l.length = 2 ∧ ∀ i, i < 2 → l[i]? = ([1, 2, 3] : List Nat)[i]? :=
  C9_views ⟨[1, 2, 3], 2⟩ (by decide)

/-- C10: immediately after `with_capacity n` the logical length is 0 and the
backing storage holds no elements (capacity is only reserved), so
`push_reuse` returns `None`: reserved capacity alone never provides a
reservoir slot. -/
theorem C10_with_capacity (n : Nat) :
    (with_capacity n : ReusableVec α).len = 0 ∧
    (with_capacity n : ReusableVec α).vec = [] ∧
    push_reuse (with_capacity n : ReusableVec α) = (none, with_capacity n) := by
  refine ⟨rfl, rfl, ?_⟩
  simp [push_reuse, with_capacity]

theorem C10_with_capacity_witness :
    (with_capacity 4 : ReusableVec Nat).len = 0 ∧
    (with_capacity 4 : ReusableVec Nat).vec = [] ∧
    push_reuse (with_capacity 4 : ReusableVec Nat) = (none, with_capacity 4) :=
  C10_with_capacity 4

end ReusableVec
